import Mathlib

/-!
Verification of the chained hash table in `chainhash.h` and the bag-of-words
builder in `p2.cpp`.

The table is embedded shallowly: the bucket array `Node**` becomes a list of
chains (each chain a list of key/value pairs, head first, matching the
singly-linked `ChainHashNode` lists), the parallel `int* bucket_sizes` array
becomes a list of naturals, and the scalar counters `nsize`, `capacity`,
`usedBuckets` become natural-number fields.  `std::hash` is an unspecified
deterministic function, so every definition is parameterised by an arbitrary
`hash : K → Nat`; only `hash k % capacity` is ever used, exactly as in the
source.  `get`, which throws `std::out_of_range` when the key is absent,
returns an `Option`.
-/

/-- The `ChainHash` class state: `array` is the bucket array (each bucket the
chain hanging off it, head node first), `bucket_sizes` the cached per-bucket
counts, `nsize` the total number of entries, `capacity` the bucket-array
length and `usedBuckets` the count of non-empty buckets. -/
structure ChainHash (K V : Type) where
  array : List (List (K × V))
  bucket_sizes : List Nat
  nsize : Nat
  capacity : Nat
  usedBuckets : Nat

/-- `const int maxColision = 3`. -/
def maxColision : Nat := 3

/-- Models `fillFactor() > maxFillFactor`, i.e.
`(double)usedBuckets / (double)capacity > 0.8f`.  For every capacity the
program can reach (far below `2^26`), the floating-point comparison agrees
exactly with the rational comparison `usedBuckets / capacity > 4/5`, which is
what this definition states over the naturals. -/
def fillFactorExceeded (usedBuckets capacity : Nat) : Prop :=
  4 * capacity < 5 * usedBuckets

instance (u c : Nat) : Decidable (fillFactorExceeded u c) := by
  unfold fillFactorExceeded; infer_instance

/-- The constructor `ChainHash(int initialCapacity = 10)`: a non-positive
requested capacity falls back to 10; all buckets start empty, all counters
zero. -/
def mkChainHash (K V : Type) (initialCapacity : Int) : ChainHash K V :=
  let cap : Nat := if initialCapacity ≤ 0 then 10 else initialCapacity.toNat
  { array := List.replicate cap []
    bucket_sizes := List.replicate cap 0
    nsize := 0
    capacity := cap
    usedBuckets := 0 }

variable {K V : Type} [DecidableEq K]

/-- The chain scan shared by `get`: walk the chain, return the value of the
first node whose key compares equal, `none` if the chain is exhausted. -/
def findInChain (chain : List (K × V)) (k : K) : Option V :=
  match chain with
  | [] => none
  | (k1, v) :: rest => if k1 = k then some v else findInChain rest k

/-- The chain scan of `contains`: identical walk, returning only presence. -/
def containsChain (chain : List (K × V)) (k : K) : Bool :=
  match chain with
  | [] => false
  | (k1, _) :: rest => if k1 = k then true else containsChain rest k

/-- `TV get(TK key)`: index by `hash(key) % capacity`, scan that bucket's
chain; `none` models the thrown `std::out_of_range`. -/
def ChainHash.get (hash : K → Nat) (t : ChainHash K V) (k : K) : Option V :=
  findInChain (t.array.getD (hash k % t.capacity) []) k

/-- `bool contains(TK key)`. -/
def ChainHash.contains (hash : K → Nat) (t : ChainHash K V) (k : K) : Bool :=
  containsChain (t.array.getD (hash k % t.capacity) []) k

/-- `int size()`. -/
def ChainHash.size (t : ChainHash K V) : Nat := t.nsize

/-- `int bucket_count()`. -/
def ChainHash.bucket_count (t : ChainHash K V) : Nat := t.capacity

/-- `int bucket_size(int index)`: `none` models the thrown
`std::out_of_range` on an index outside `[0, capacity)`. -/
def ChainHash.bucket_size (t : ChainHash K V) (index : Nat) : Option Nat :=
  if index < t.capacity then some (t.bucket_sizes.getD index 0) else none

/-- The overwrite scan inside `set`: walk the chain; if a node with equal key
exists, overwrite its value in place and return the updated chain, else
`none` (the insertion path is taken). -/
def overwriteInChain (chain : List (K × V)) (k : K) (v : V) :
    Option (List (K × V)) :=
  match chain with
  | [] => none
  | (k1, v1) :: rest =>
    if k1 = k then some ((k1, v) :: rest)
    else (overwriteInChain rest k v).map (fun c => (k1, v1) :: c)

/-- The state threaded through `rehashing`'s redistribution loop: the new
bucket array, the new size array and the running `newUsedBuckets` count. -/
structure RehashState (K V : Type) where
  arr : List (List (K × V))
  sizes : List Nat
  used : Nat

/-- One iteration of the inner `rehashing` loop: splice the node onto the
head of its new bucket (`node->next = newArray[idx]; newArray[idx] = node`),
bumping `newUsedBuckets` if the bucket was empty, then its size count. -/
def spliceNode (hash : K → Nat) (newCap : Nat) (s : RehashState K V)
    (kv : K × V) : RehashState K V :=
  let idx := hash kv.1 % newCap
  { arr := s.arr.set idx (kv :: s.arr.getD idx [])
    sizes := s.sizes.set idx (s.sizes.getD idx 0 + 1)
    used := if s.sizes.getD idx 0 = 0 then s.used + 1 else s.used }

/-- `void rehashing()`: `newCap = oldCap * 2 + 1` (with the source's
overflow guard, vacuous over the naturals), splice every node of every old
bucket, in bucket order and chain order, into the new arrays, then install
them together with the recomputed `usedBuckets`; `nsize` is untouched. -/
def ChainHash.rehashing (hash : K → Nat) (t : ChainHash K V) : ChainHash K V :=
  let oldCap := t.capacity
  let newCap := if 2 * oldCap + 1 ≤ oldCap then oldCap + 1 else 2 * oldCap + 1
  let s0 : RehashState K V :=
    { arr := List.replicate newCap [], sizes := List.replicate newCap 0, used := 0 }
  let s := (List.range oldCap).foldl
    (fun s i => (t.array.getD i []).foldl (spliceNode hash newCap) s) s0
  { array := s.arr
    bucket_sizes := s.sizes
    nsize := t.nsize
    capacity := newCap
    usedBuckets := s.used }

/-- `void set(TK key, TV value)`: overwrite in place if the key exists in its
chain, else prepend a new node to the original head, update the counters, and
rehash when the updated bucket size exceeds `maxColision` or the fill factor
exceeds `maxFillFactor`. -/
def ChainHash.set (hash : K → Nat) (t : ChainHash K V) (k : K) (v : V) :
    ChainHash K V :=
  let index := hash k % t.capacity
  let chain := t.array.getD index []
  match overwriteInChain chain k v with
  | some c => { t with array := t.array.set index c }
  | none =>
    let newSizes := t.bucket_sizes.set index (t.bucket_sizes.getD index 0 + 1)
    let t1 : ChainHash K V :=
      { array := t.array.set index ((k, v) :: chain)
        bucket_sizes := newSizes
        nsize := t.nsize + 1
        capacity := t.capacity
        usedBuckets :=
          if t.bucket_sizes.getD index 0 = 0 then t.usedBuckets + 1
          else t.usedBuckets }
    if maxColision < newSizes.getD index 0 ∨
        fillFactorExceeded t1.usedBuckets t1.capacity
    then ChainHash.rehashing hash t1 else t1

/-- The state built by `set`'s insertion path just before the rehash check:
the new node prepended to its bucket, the bucket's size bumped, `usedBuckets`
bumped if the bucket was empty, `nsize` incremented. -/
def insertState (hash : K → Nat) (t : ChainHash K V) (k : K) (v : V) :
    ChainHash K V :=
  let index := hash k % t.capacity
  { array := t.array.set index ((k, v) :: t.array.getD index [])
    bucket_sizes := t.bucket_sizes.set index (t.bucket_sizes.getD index 0 + 1)
    nsize := t.nsize + 1
    capacity := t.capacity
    usedBuckets :=
      if t.bucket_sizes.getD index 0 = 0 then t.usedBuckets + 1
      else t.usedBuckets }

/-- The condition under which `set`'s insertion path calls `rehashing`: the
updated bucket size exceeds `maxColision`, or the updated fill factor exceeds
`maxFillFactor`. -/
def rehashTrigger (hash : K → Nat) (t : ChainHash K V) (k : K) (v : V) :
    Prop :=
  maxColision <
      (insertState hash t k v).bucket_sizes.getD (hash k % t.capacity) 0 ∨
    fillFactorExceeded (insertState hash t k v).usedBuckets
      (insertState hash t k v).capacity

instance (hash : K → Nat) (t : ChainHash K V) (k : K) (v : V) :
    Decidable (rehashTrigger hash t k v) := by
  unfold rehashTrigger; infer_instance

/-- The unlink scan inside `remove`: walk the chain; on the first node with a
matching key return the chain with that node unlinked, else `none`. -/
def removeFromChain (chain : List (K × V)) (k : K) : Option (List (K × V)) :=
  match chain with
  | [] => none
  | (k1, v1) :: rest =>
    if k1 = k then some rest
    else (removeFromChain rest k).map (fun c => (k1, v1) :: c)

/-- `bool remove(TK key)`: unlink the matching node if present, decrement
`nsize` and the bucket's size, decrement `usedBuckets` if the bucket became
empty, and report whether a node was removed. -/
def ChainHash.remove (hash : K → Nat) (t : ChainHash K V) (k : K) :
    Bool × ChainHash K V :=
  let index := hash k % t.capacity
  match removeFromChain (t.array.getD index []) k with
  | none => (false, t)
  | some c =>
    let ns := t.bucket_sizes.getD index 0 - 1
    (true,
      { array := t.array.set index c
        bucket_sizes := t.bucket_sizes.set index ns
        nsize := t.nsize - 1
        capacity := t.capacity
        usedBuckets := if ns = 0 then t.usedBuckets - 1 else t.usedBuckets })

/-- Well-formedness of a table state with respect to the hash function: the
spec's data-model invariants, all established by the constructor and
maintained by every operation. -/
structure ChainHash.WF (hash : K → Nat) (t : ChainHash K V) : Prop where
  cap_pos : 0 < t.capacity
  arr_len : t.array.length = t.capacity
  sizes_len : t.bucket_sizes.length = t.capacity
  sizes_eq : ∀ i, t.bucket_sizes.getD i 0 = (t.array.getD i []).length
  nsize_eq : t.nsize = (t.array.map List.length).sum
  used_eq : t.usedBuckets = t.array.countP (fun b => 0 < b.length)
  placed : ∀ i, ∀ k ∈ (t.array.getD i []).map Prod.fst, hash k % t.capacity = i
  nodupKeys : ∀ i, ((t.array.getD i []).map Prod.fst).Nodup

/-- Invariant of the redistribution state threaded through `rehashing`'s
loops: array lengths, cached sizes, the running used-bucket count and the
placement of every already-spliced node, relative to the new capacity. -/
structure RSWF (hash : K → Nat) (newCap : Nat) (s : RehashState K V) : Prop where
  arr_len : s.arr.length = newCap
  sizes_len : s.sizes.length = newCap
  sizes_eq : ∀ i, s.sizes.getD i 0 = (s.arr.getD i []).length
  used_eq : s.used = s.arr.countP (fun b => 0 < b.length)
  placed : ∀ i, ∀ k ∈ (s.arr.getD i []).map Prod.fst, hash k % newCap = i

/-- Table states reachable from the constructor by `set` and `remove`. -/
inductive ChainHash.Reachable (hash : K → Nat) : ChainHash K V → Prop where
  | init : ∀ c : Int, ChainHash.Reachable hash (mkChainHash K V c)
  | step_set : ∀ t k v, ChainHash.Reachable hash t →
      ChainHash.Reachable hash (ChainHash.set hash t k v)
  | step_remove : ∀ t k, ChainHash.Reachable hash t →
      ChainHash.Reachable hash (ChainHash.remove hash t k).2

/-- A sequence of `set` operations run against a freshly constructed table
(the default capacity 10). -/
def runSets (hash : K → Nat) (ops : List (K × V)) : ChainHash K V :=
  ops.foldl (fun t kv => ChainHash.set hash t kv.1 kv.2) (mkChainHash K V 10)

/-- Whitespace as recognised by `operator>>` on a `stringstream` in the C
locale (`isspace`). -/
def cIsSpace (c : Char) : Bool :=
  c = ' ' ∨ c = '\t' ∨ c = '\n' ∨ c = '\x0b' ∨ c = '\x0c' ∨ c = '\x0d'

/-- `isalnum` in the C locale: ASCII letters and digits only (the bytes of a
non-ASCII UTF-8 character are not alphanumeric). -/
def cIsAlnum (c : Char) : Bool :=
  ('0' ≤ c ∧ c ≤ '9') ∨ ('A' ≤ c ∧ c ≤ 'Z') ∨ ('a' ≤ c ∧ c ≤ 'z')

/-- `::tolower` in the C locale: lowercase ASCII uppercase letters, leave
everything else unchanged. -/
def cToLower (c : Char) : Char :=
  if 'A' ≤ c ∧ c ≤ 'Z' then Char.ofNat (c.toNat + 32) else c

/-- Split a character stream at whitespace, the way repeated `ss >> word`
extraction does (empty fields are produced here and discarded by `tokenize`,
which extraction never yields them anyway). -/
def splitWs : List Char → List Char → List (List Char)
  | [], acc => [acc.reverse]
  | c :: cs, acc =>
    if cIsSpace c then acc.reverse :: splitWs cs [] else splitWs cs (c :: acc)

/-- `vector<string> tokenize(const string&)`: split on whitespace, erase
non-alphanumeric characters from each word, keep non-empty results,
lowercased. -/
def tokenize (text : String) : List String :=
  (splitWs text.data []).filterMap (fun w =>
    let stripped := w.filter cIsAlnum
    if stripped.isEmpty then none
    else some (String.mk (stripped.map cToLower)))

/-- The body of `bagOfWords`' inner loop over one document's distinct words:
if the word is already present, fetch its document list, push the current
document index and store it back, otherwise store the singleton list. -/
def bowStepWord (hash : String → Nat) (docIndex : Nat)
    (result : ChainHash String (List Nat)) (word : String) :
    ChainHash String (List Nat) :=
  if ChainHash.contains hash result word then
    ChainHash.set hash result word
      ((ChainHash.get hash result word).getD [] ++ [docIndex])
  else
    ChainHash.set hash result word [docIndex]

/-- One iteration of `bagOfWords`' outer loop: tokenize the document,
deduplicate its words (the `unordered_set`; its iteration order is
unspecified in the source, and every property proved below is independent of
the order, so an arbitrary duplicate-free ordering is used), and run the
inner loop. -/
def bowStepDoc (hash : String → Nat) (documentos : List String)
    (result : ChainHash String (List Nat)) (docIndex : Nat) :
    ChainHash String (List Nat) :=
  ((tokenize (documentos.getD docIndex "")).dedup).foldl
    (bowStepWord hash docIndex) result

/-- `ChainHash<string, vector<int>> bagOfWords(const vector<string>&)`:
starting from a table of capacity 13, process the documents in order. -/
def bagOfWords (hash : String → Nat) (documentos : List String) :
    ChainHash String (List Nat) :=
  (List.range documentos.length).foldl (bowStepDoc hash documentos)
    (mkChainHash String (List Nat) 13)

/-- The abstract effect of one document on the word-to-document-indices map:
every distinct word of document `docIndex` gets `docIndex` appended to its
list (started from `[]` when absent); all other words are untouched. -/
def bowSpecStep (documentos : List String)
    (m : String → Option (List Nat)) (docIndex : Nat) :
    String → Option (List Nat) :=
  fun w =>
    if w ∈ (tokenize (documentos.getD docIndex "")).dedup
    then some ((m w).getD [] ++ [docIndex]) else m w

/-- The abstract word-to-document-indices map built by `bagOfWords`. -/
def bowSpec (documentos : List String) : String → Option (List Nat) :=
  (List.range documentos.length).foldl (bowSpecStep documentos) (fun _ => none)

/-- The four input documents of `main` in `p2.cpp`. -/
def documentos : List String :=
  ["La casa es grande", "El gato está en la casa",
   "La casa es bonita y grande", "El sol brilla sobre la casa"]

/-- A concrete hash function on naturals used to instantiate witnesses. -/
def hashId : Nat → Nat := fun n => n

/-- A freshly constructed table over natural keys and values. -/
def t10 : ChainHash Nat Nat := mkChainHash Nat Nat 10

/-- `t10` after `set(1, 5)`: a table containing key 1. -/
def t11 : ChainHash Nat Nat := ChainHash.set hashId t10 1 5

/-! ### List index/update helper lemmas -/

theorem getD_of_ge {α : Type} {l : List α} {i : Nat} {d : α}
    (h : l.length ≤ i) : l.getD i d = d := by
  induction l generalizing i with
  | nil => rfl
  | cons x xs ih =>
    cases i with
    | zero => simp at h
    | succ n => exact ih (Nat.le_of_succ_le_succ h)

theorem getD_set_self {α : Type} {l : List α} {i : Nat} {a d : α}
    (h : i < l.length) : (l.set i a).getD i d = a := by
  induction l generalizing i with
  | nil => simp at h
  | cons x xs ih =>
    cases i with
    | zero => rfl
    | succ n => exact ih (Nat.lt_of_succ_lt_succ h)

theorem getD_set_ne {α : Type} {l : List α} {i j : Nat} {a d : α}
    (h : i ≠ j) : (l.set i a).getD j d = l.getD j d := by
  induction l generalizing i j with
  | nil => rfl
  | cons x xs ih =>
    cases i with
    | zero =>
      cases j with
      | zero => exact absurd rfl h
      | succ m => rfl
    | succ n =>
      cases j with
      | zero => rfl
      | succ m => exact ih (fun hnm => h (congrArg Nat.succ hnm))

theorem getD_replicate {α : Type} {n i : Nat} {a d : α} :
    (List.replicate n a).getD i d = if i < n then a else d := by
  induction n generalizing i with
  | zero => simp
  | succ m ih =>
    cases i with
    | zero => simp [List.replicate]
    | succ j => simpa [List.replicate, Nat.succ_lt_succ_iff] using ih

theorem getD_eq_get {α : Type} {l : List α} {i : Nat} {d : α}
    (h : i < l.length) : l.getD i d = l.get ⟨i, h⟩ := by
  induction l generalizing i with
  | nil => simp at h
  | cons x xs ih =>
    cases i with
    | zero => rfl
    | succ n => exact ih (Nat.lt_of_succ_lt_succ h)

theorem getD_mem {α : Type} {l : List α} {i : Nat} {d : α}
    (h : i < l.length) : l.getD i d ∈ l := by
  rw [getD_eq_get h]; exact l.get_mem i h

theorem map_sum_set {α : Type} {l : List α} {i : Nat} {a : α} (f : α → Nat)
    (d : α) (h : i < l.length) :
    ((l.set i a).map f).sum + f (l.getD i d) = (l.map f).sum + f a := by
  induction l generalizing i with
  | nil => simp at h
  | cons x xs ih =>
    cases i with
    | zero => simp [List.set]; omega
    | succ n =>
      have := ih (Nat.lt_of_succ_lt_succ h)
      simp only [List.set, List.map_cons, List.sum_cons, List.getD_cons_succ]
      omega

theorem countP_set {α : Type} {l : List α} {i : Nat} {a : α} (p : α → Bool)
    (d : α) (h : i < l.length) :
    (l.set i a).countP p + (if p (l.getD i d) then 1 else 0) =
      l.countP p + (if p a then 1 else 0) := by
  induction l generalizing i with
  | nil => simp at h
  | cons x xs ih =>
    cases i with
    | zero => simp [List.set, List.countP_cons]; omega
    | succ n =>
      have := ih (Nat.lt_of_succ_lt_succ h)
      simp only [List.set, List.countP_cons, List.getD_cons_succ]
      omega

theorem flatten_set_cons {α : Type} {l : List (List α)} {i : Nat} {a : α}
    (h : i < l.length) :
    ((l.set i (a :: l.getD i [])).flatten).Perm (a :: l.flatten) := by
  induction l generalizing i with
  | nil => simp at h
  | cons x xs ih =>
    cases i with
    | zero => simp
    | succ n =>
      have hperm := ih (Nat.lt_of_succ_lt_succ h)
      simp only [List.set, List.getD_cons_succ, List.flatten_cons]
      exact (List.Perm.append_left x hperm).trans List.perm_middle

theorem getD_sublist_flatten {α : Type} (l : List (List α)) (i : Nat) :
    List.Sublist (l.getD i []) l.flatten := by
  induction l generalizing i with
  | nil => simp
  | cons x xs ih =>
    cases i with
    | zero => simp [List.sublist_append_left x xs.flatten]
    | succ n =>
      simp only [List.getD_cons_succ, List.flatten_cons]
      exact (ih n).trans (List.sublist_append_right x xs.flatten)

theorem range_map_getD {α : Type} (l : List α) (d : α) :
    (List.range l.length).map (fun i => l.getD i d) = l := by
  induction l with
  | nil => rfl
  | cons x xs ih =>
    rw [List.length_cons, List.range_succ_eq_map, List.map_cons, List.map_map]
    exact congrArg (x :: ·) ih

theorem foldl_foldl_flatten {α β : Type} (f : β → α → β) (b : β)
    (L : List (List α)) :
    L.foldl (fun s c => c.foldl f s) b = L.flatten.foldl f b := by
  induction L generalizing b with
  | nil => rfl
  | cons x xs ih => rw [List.foldl_cons, List.flatten_cons, List.foldl_append, ih]

/-! ### Chain scan lemmas -/

theorem containsChain_eq_isSome (c : List (K × V)) (k : K) :
    containsChain c k = (findInChain c k).isSome := by
  induction c with
  | nil => rfl
  | cons kv rest ih =>
    obtain ⟨k1, v1⟩ := kv
    by_cases h : k1 = k <;> simp [containsChain, findInChain, h, ih]

theorem findInChain_none_iff {c : List (K × V)} {k : K} :
    findInChain c k = none ↔ k ∉ c.map Prod.fst := by
  induction c with
  | nil => simp [findInChain]
  | cons kv rest ih =>
    obtain ⟨k1, v1⟩ := kv
    by_cases h : k1 = k
    · simp [findInChain, h]
    · simp only [findInChain, if_neg h, ih, List.map_cons, List.mem_cons]
      constructor
      · intro hn hm
        rcases hm with hm | hm
        · exact h hm.symm
        · exact hn hm
      · intro hn hm
        exact hn (Or.inr hm)

theorem findInChain_mem {c : List (K × V)} {k : K} {v : V}
    (h : findInChain c k = some v) : (k, v) ∈ c := by
  induction c with
  | nil => simp [findInChain] at h
  | cons kv rest ih =>
    obtain ⟨k1, v1⟩ := kv
    by_cases h1 : k1 = k
    · simp [findInChain, h1] at h
      simp [h1, h]
    · simp only [findInChain, if_neg h1] at h
      exact List.mem_cons_of_mem _ (ih h)

theorem findInChain_of_mem {c : List (K × V)} {k : K} {v : V}
    (hnd : (c.map Prod.fst).Nodup) (hm : (k, v) ∈ c) :
    findInChain c k = some v := by
  induction c with
  | nil => simp at hm
  | cons kv rest ih =>
    obtain ⟨k1, v1⟩ := kv
    simp only [List.map_cons, List.nodup_cons] at hnd
    rcases List.mem_cons.1 hm with heq | hmem
    · obtain ⟨h1, h2⟩ := Prod.mk.injEq .. ▸ heq.symm
      simp [findInChain, h1, h2]
    · have hk1 : k1 ≠ k := by
        intro h1
        exact hnd.1 (h1 ▸ (List.mem_map.2 ⟨(k, v), hmem, rfl⟩))
      simp only [findInChain, if_neg hk1]
      exact ih hnd.2 hmem

theorem findInChain_append (c1 c2 : List (K × V)) (k : K) :
    findInChain (c1 ++ c2) k =
      match findInChain c1 k with
      | some v => some v
      | none => findInChain c2 k := by
  induction c1 with
  | nil => simp [findInChain]
  | cons kv rest ih =>
    obtain ⟨k1, v1⟩ := kv
    by_cases h : k1 = k <;> simp [findInChain, h, ih]

theorem overwriteInChain_none_iff {c : List (K × V)} {k : K} {v : V} :
    overwriteInChain c k v = none ↔ k ∉ c.map Prod.fst := by
  induction c with
  | nil => simp [overwriteInChain]
  | cons kv rest ih =>
    obtain ⟨k1, v1⟩ := kv
    by_cases h : k1 = k
    · simp [overwriteInChain, h]
    · simp only [overwriteInChain, if_neg h, Option.map_eq_none', ih,
        List.map_cons, List.mem_cons]
      constructor
      · intro hn hm
        rcases hm with hm | hm
        · exact h hm.symm
        · exact hn hm
      · intro hn hm
        exact hn (Or.inr hm)

theorem overwrite_keys {c c' : List (K × V)} {k : K} {v : V}
    (h : overwriteInChain c k v = some c') :
    c'.map Prod.fst = c.map Prod.fst := by
  induction c generalizing c' with
  | nil => simp [overwriteInChain] at h
  | cons kv rest ih =>
    obtain ⟨k1, v1⟩ := kv
    by_cases h1 : k1 = k
    · simp only [overwriteInChain, if_pos h1] at h
      obtain rfl := Option.some.inj h
      simp
    · simp only [overwriteInChain, if_neg h1, Option.map_eq_some'] at h
      obtain ⟨c1, hc1, rfl⟩ := h
      simp [ih hc1]

theorem overwrite_length {c c' : List (K × V)} {k : K} {v : V}
    (h : overwriteInChain c k v = some c') : c'.length = c.length := by
  have := overwrite_keys h
  calc c'.length = (c'.map Prod.fst).length := (List.length_map ..).symm
    _ = (c.map Prod.fst).length := by rw [this]
    _ = c.length := List.length_map ..

theorem overwrite_find_self {c c' : List (K × V)} {k : K} {v : V}
    (h : overwriteInChain c k v = some c') : findInChain c' k = some v := by
  induction c generalizing c' with
  | nil => simp [overwriteInChain] at h
  | cons kv rest ih =>
    obtain ⟨k1, v1⟩ := kv
    by_cases h1 : k1 = k
    · simp only [overwriteInChain, if_pos h1] at h
      obtain rfl := Option.some.inj h
      simp [findInChain, h1]
    · simp only [overwriteInChain, if_neg h1, Option.map_eq_some'] at h
      obtain ⟨c1, hc1, rfl⟩ := h
      simp only [findInChain, if_neg h1]
      exact ih hc1

theorem overwrite_find_other {c c' : List (K × V)} {k k' : K} {v : V}
    (h : overwriteInChain c k v = some c') (hne : k' ≠ k) :
    findInChain c' k' = findInChain c k' := by
  induction c generalizing c' with
  | nil => simp [overwriteInChain] at h
  | cons kv rest ih =>
    obtain ⟨k1, v1⟩ := kv
    by_cases h1 : k1 = k
    · simp only [overwriteInChain, if_pos h1] at h
      obtain rfl := Option.some.inj h
      have hne1 : k1 ≠ k' := fun hx => hne (hx.symm.trans h1)
      simp [findInChain, hne1]
    · simp only [overwriteInChain, if_neg h1, Option.map_eq_some'] at h
      obtain ⟨c1, hc1, rfl⟩ := h
      by_cases h2 : k1 = k' <;> simp [findInChain, h2, ih hc1]

theorem removeFromChain_none_iff {c : List (K × V)} {k : K} :
    removeFromChain c k = none ↔ k ∉ c.map Prod.fst := by
  induction c with
  | nil => simp [removeFromChain]
  | cons kv rest ih =>
    obtain ⟨k1, v1⟩ := kv
    by_cases h : k1 = k
    · simp [removeFromChain, h]
    · simp only [removeFromChain, if_neg h, Option.map_eq_none', ih,
        List.map_cons, List.mem_cons]
      constructor
      · intro hn hm
        rcases hm with hm | hm
        · exact h hm.symm
        · exact hn hm
      · intro hn hm
        exact hn (Or.inr hm)

theorem removeFromChain_spec {c c' : List (K × V)} {k : K}
    (h : removeFromChain c k = some c') :
    ∃ pre v post, c = pre ++ (k, v) :: post ∧ c' = pre ++ post ∧
      k ∉ pre.map Prod.fst := by
  induction c generalizing c' with
  | nil => simp [removeFromChain] at h
  | cons kv rest ih =>
    obtain ⟨k1, v1⟩ := kv
    by_cases h1 : k1 = k
    · simp only [removeFromChain, if_pos h1] at h
      subst h1
      obtain rfl := Option.some.inj h
      exact ⟨[], v1, rest, by simp, by simp, by simp⟩
    · simp only [removeFromChain, if_neg h1, Option.map_eq_some'] at h
      obtain ⟨c1, hc1, rfl⟩ := h
      obtain ⟨pre, v, post, hc, hc1', hkp⟩ := ih hc1
      refine ⟨(k1, v1) :: pre, v, post, by simp [hc], by simp [hc1'], ?_⟩
      simp only [List.map_cons, List.mem_cons]
      rintro (h2 | h2)
      · exact h1 h2.symm
      · exact hkp h2

/-! ### Membership characterisation of `get` on well-formed tables -/

theorem getD_eq_getElem {α : Type} {l : List α} {i : Nat} {d : α}
    (h : i < l.length) : l.getD i d = l[i] := by
  rw [getD_eq_get h, List.get_eq_getElem]

theorem ChainHash.get_eq_some_iff {hash : K → Nat} {t : ChainHash K V}
    (h : t.WF hash) {k : K} {v : V} :
    ChainHash.get hash t k = some v ↔ (k, v) ∈ t.array.flatten := by
  constructor
  · intro hg
    exact (getD_sublist_flatten t.array (hash k % t.capacity)).subset
      (findInChain_mem hg)
  · intro hm
    obtain ⟨b, hb, hmb⟩ := List.mem_flatten.1 hm
    obtain ⟨n, hn⟩ := List.mem_iff_get.1 hb
    have hD : t.array.getD n.1 [] = b := by rw [getD_eq_get n.2]; exact hn
    have hk : hash k % t.capacity = n.1 :=
      h.placed n.1 k (hD ▸ List.mem_map.2 ⟨(k, v), hmb, rfl⟩)
    rw [ChainHash.get, hk, hD]
    exact findInChain_of_mem (hD ▸ h.nodupKeys n.1) hmb

theorem ChainHash.get_eq_none_iff {hash : K → Nat} {t : ChainHash K V}
    (h : t.WF hash) {k : K} :
    ChainHash.get hash t k = none ↔ k ∉ t.array.flatten.map Prod.fst := by
  constructor
  · intro hg hk
    obtain ⟨⟨k0, v⟩, hm, hfst⟩ := List.mem_map.1 hk
    cases hfst
    rw [(ChainHash.get_eq_some_iff h).2 hm] at hg
    cases hg
  · intro hk
    cases hg : ChainHash.get hash t k with
    | none => rfl
    | some v =>
      exact absurd (List.mem_map.2 ⟨(k, v), (ChainHash.get_eq_some_iff h).1 hg, rfl⟩)
        hk

omit [DecidableEq K] in
theorem wf_flatten_keys_nodup {hash : K → Nat} {t : ChainHash K V}
    (h : t.WF hash) : (t.array.flatten.map Prod.fst).Nodup := by
  rw [List.map_flatten, List.nodup_flatten]
  constructor
  · intro l hl
    obtain ⟨b, hb, rfl⟩ := List.mem_map.1 hl
    obtain ⟨n, hn⟩ := List.mem_iff_get.1 hb
    have hD : t.array.getD n.1 [] = b := by rw [getD_eq_get n.2]; exact hn
    exact hD ▸ h.nodupKeys n.1
  · rw [List.pairwise_iff_getElem]
    intro i j hi hj hij
    rw [List.length_map] at hi hj
    intro k hki hkj
    have hgi : (t.array.map (List.map Prod.fst))[i] =
        (t.array.getD i []).map Prod.fst := by
      rw [List.getElem_map, getD_eq_getElem hi]
    have hgj : (t.array.map (List.map Prod.fst))[j] =
        (t.array.getD j []).map Prod.fst := by
      rw [List.getElem_map, getD_eq_getElem hj]
    rw [hgi] at hki
    rw [hgj] at hkj
    have h1 := h.placed i k hki
    have h2 := h.placed j k hkj
    omega

theorem ChainHash.get_congr_perm {hash : K → Nat} {t1 t2 : ChainHash K V}
    (h1 : t1.WF hash) (h2 : t2.WF hash)
    (hp : t1.array.flatten.Perm t2.array.flatten) (k : K) :
    ChainHash.get hash t2 k = ChainHash.get hash t1 k := by
  cases hg : ChainHash.get hash t1 k with
  | some v =>
    exact (ChainHash.get_eq_some_iff h2).2
      (hp.mem_iff.1 ((ChainHash.get_eq_some_iff h1).1 hg))
  | none =>
    rw [ChainHash.get_eq_none_iff h2]
    rw [ChainHash.get_eq_none_iff h1] at hg
    intro hk
    exact hg (((hp.map Prod.fst).mem_iff).2 hk)

/-! ### Rehashing: the redistribution loop preserves the entry multiset -/

theorem countP_replicate {α : Type} (p : α → Bool) (n : Nat) (a : α) :
    (List.replicate n a).countP p = if p a then n else 0 := by
  induction n with
  | zero => simp
  | succ m ih =>
    rw [List.replicate_succ, List.countP_cons, ih]
    by_cases h : p a <;> simp [h]

theorem countP_pos_set_cons {α : Type} {l : List (List α)} {i : Nat}
    {a : α} (h : i < l.length) :
    (l.set i (a :: l.getD i [])).countP (fun b => 0 < b.length) =
      l.countP (fun b => 0 < b.length) +
        (if (l.getD i []).length = 0 then 1 else 0) := by
  induction l generalizing i with
  | nil => simp at h
  | cons x xs ih =>
    cases i with
    | zero =>
      simp only [List.set_cons_zero, List.getD_cons_zero, List.countP_cons,
        List.length_cons]
      by_cases hx : x.length = 0
      · have h1 : ¬ (0 < x.length) := by omega
        simp [hx, h1]
      · have h2 : 0 < x.length := Nat.pos_of_ne_zero hx
        simp [hx, h2]
    | succ n =>
      have := ih (Nat.lt_of_succ_lt_succ h)
      simp only [List.set, List.countP_cons, List.getD_cons_succ, this]
      omega

theorem countP_pos_set_same_len {α : Type} {l : List (List α)} {i : Nat}
    {c : List α} (h : i < l.length)
    (hlen : c.length = (l.getD i []).length) :
    (l.set i c).countP (fun b => 0 < b.length) =
      l.countP (fun b => 0 < b.length) := by
  induction l generalizing i with
  | nil => simp at h
  | cons x xs ih =>
    cases i with
    | zero =>
      simp only [List.getD_cons_zero] at hlen
      simp [List.countP_cons, hlen]
    | succ n =>
      simp only [List.getD_cons_succ] at hlen
      have := ih (Nat.lt_of_succ_lt_succ h) hlen
      simp only [List.set, List.countP_cons, this]

theorem countP_pos_set_shrink {α : Type} {l : List (List α)} {i : Nat}
    {c : List α} (h : i < l.length)
    (hlen : (l.getD i []).length = c.length + 1) :
    (l.set i c).countP (fun b => 0 < b.length) +
        (if c.length = 0 then 1 else 0) =
      l.countP (fun b => 0 < b.length) := by
  induction l generalizing i with
  | nil => simp at h
  | cons x xs ih =>
    cases i with
    | zero =>
      simp only [List.getD_cons_zero] at hlen
      have hx : 0 < x.length := by omega
      simp only [List.set_cons_zero, List.countP_cons]
      by_cases hc : c.length = 0
      · have h1 : ¬ (0 < c.length) := by omega
        simp [hc, h1, hx]
      · have h2 : 0 < c.length := Nat.pos_of_ne_zero hc
        simp [hc, h2, hx]
    | succ n =>
      simp only [List.getD_cons_succ] at hlen
      have := ih (Nat.lt_of_succ_lt_succ h) hlen
      simp only [List.set, List.countP_cons, List.getD_cons_succ]
      omega

omit [DecidableEq K] in
theorem rswf_init {hash : K → Nat} {newCap : Nat} :
    RSWF hash newCap
      { arr := List.replicate newCap ([] : List (K × V)),
        sizes := List.replicate newCap 0, used := 0 } := by
  refine ⟨by simp, by simp, ?_, ?_, ?_⟩
  · intro i
    rw [getD_replicate, getD_replicate]
    by_cases h : i < newCap <;> simp [h]
  · rw [countP_replicate]; simp
  · intro i k hk
    rw [getD_replicate] at hk
    by_cases h : i < newCap <;> simp [h] at hk

omit [DecidableEq K] in
theorem spliceNode_rswf {hash : K → Nat} {newCap : Nat} {s : RehashState K V}
    (h : RSWF hash newCap s) (hpos : 0 < newCap) (kv : K × V) :
    RSWF hash newCap (spliceNode hash newCap s kv) ∧
    (spliceNode hash newCap s kv).arr.flatten.Perm (kv :: s.arr.flatten) := by
  have hidx : hash kv.1 % newCap < newCap := Nat.mod_lt _ hpos
  have hia : hash kv.1 % newCap < s.arr.length := by rw [h.arr_len]; exact hidx
  have his : hash kv.1 % newCap < s.sizes.length := by
    rw [h.sizes_len]; exact hidx
  constructor
  · refine ⟨by simp [spliceNode, h.arr_len], by simp [spliceNode, h.sizes_len],
      ?_, ?_, ?_⟩
    · intro i
      by_cases hi : hash kv.1 % newCap = i
      · subst hi
        rw [spliceNode, getD_set_self his, getD_set_self hia]
        rw [List.length_cons, h.sizes_eq]
      · rw [spliceNode, getD_set_ne hi, getD_set_ne hi, h.sizes_eq]
    · show (if s.sizes.getD (hash kv.1 % newCap) 0 = 0 then s.used + 1
          else s.used) =
        (s.arr.set (hash kv.1 % newCap)
          (kv :: s.arr.getD (hash kv.1 % newCap) [])).countP
          (fun b => 0 < b.length)
      rw [countP_pos_set_cons hia, h.sizes_eq, h.used_eq]
      split_ifs <;> omega
    · intro i k hk
      by_cases hi : hash kv.1 % newCap = i
      · subst hi
        rw [spliceNode, getD_set_self hia] at hk
        rcases List.mem_cons.1 hk with hk | hk
        · rw [hk]
        · exact h.placed _ k hk
      · rw [spliceNode, getD_set_ne hi] at hk
        exact h.placed i k hk
  · exact flatten_set_cons hia

omit [DecidableEq K] in
theorem foldl_splice_rswf {hash : K → Nat} {newCap : Nat} (hpos : 0 < newCap)
    (L : List (K × V)) (s : RehashState K V) (h : RSWF hash newCap s) :
    RSWF hash newCap (L.foldl (spliceNode hash newCap) s) ∧
    (L.foldl (spliceNode hash newCap) s).arr.flatten.Perm
      (s.arr.flatten ++ L) := by
  induction L generalizing s with
  | nil => exact ⟨h, by simp⟩
  | cons kv rest ih =>
    obtain ⟨h1, hperm1⟩ := spliceNode_rswf h hpos kv
    obtain ⟨h2, hperm2⟩ := ih _ h1
    refine ⟨h2, ?_⟩
    rw [List.foldl_cons]
    exact hperm2.trans ((hperm1.append_right rest).trans List.perm_middle.symm)

omit [DecidableEq K] in
theorem rehash_fold_eq {hash : K → Nat} (arr : List (List (K × V)))
    (newCap : Nat) (s0 : RehashState K V) :
    (List.range arr.length).foldl
        (fun s i => (arr.getD i []).foldl (spliceNode hash newCap) s) s0
      = arr.flatten.foldl (spliceNode hash newCap) s0 := by
  rw [← foldl_foldl_flatten]
  have h1 : (List.range arr.length).foldl
      (fun s i => (arr.getD i []).foldl (spliceNode hash newCap) s) s0
      = ((List.range arr.length).map (fun i => arr.getD i [])).foldl
          (fun s c => c.foldl (spliceNode hash newCap) s) s0 := by
    rw [List.foldl_map]
  rw [h1, range_map_getD]

omit [DecidableEq K] in
theorem rehashing_eq {hash : K → Nat} {t : ChainHash K V}
    (hlen : t.array.length = t.capacity) :
    ChainHash.rehashing hash t =
      { array := (t.array.flatten.foldl
          (spliceNode hash (2 * t.capacity + 1))
          { arr := List.replicate (2 * t.capacity + 1) [],
            sizes := List.replicate (2 * t.capacity + 1) 0, used := 0 }).arr,
        bucket_sizes := (t.array.flatten.foldl
          (spliceNode hash (2 * t.capacity + 1))
          { arr := List.replicate (2 * t.capacity + 1) [],
            sizes := List.replicate (2 * t.capacity + 1) 0, used := 0 }).sizes,
        nsize := t.nsize,
        capacity := 2 * t.capacity + 1,
        usedBuckets := (t.array.flatten.foldl
          (spliceNode hash (2 * t.capacity + 1))
          { arr := List.replicate (2 * t.capacity + 1) [],
            sizes := List.replicate (2 * t.capacity + 1) 0, used := 0 }).used } := by
  have hguard : ¬ (2 * t.capacity + 1 ≤ t.capacity) := by omega
  simp only [ChainHash.rehashing]
  rw [if_neg hguard, ← hlen, rehash_fold_eq]

omit [DecidableEq K] in
theorem rehashing_wf_perm {hash : K → Nat} {t : ChainHash K V} (h : t.WF hash) :
    (ChainHash.rehashing hash t).WF hash ∧
    (ChainHash.rehashing hash t).array.flatten.Perm t.array.flatten ∧
    (ChainHash.rehashing hash t).capacity = 2 * t.capacity + 1 ∧
    (ChainHash.rehashing hash t).nsize = t.nsize := by
  have hpos : 0 < 2 * t.capacity + 1 := by omega
  obtain ⟨hrswf, hperm⟩ := foldl_splice_rswf hpos t.array.flatten
    { arr := List.replicate (2 * t.capacity + 1) [],
      sizes := List.replicate (2 * t.capacity + 1) 0, used := 0 } rswf_init
  have hnil : (List.replicate (2 * t.capacity + 1)
      ([] : List (K × V))).flatten = [] := by
    rw [List.flatten_eq_nil_iff]
    intro l hl
    exact List.eq_of_mem_replicate hl
  rw [hnil, List.nil_append] at hperm
  rw [rehashing_eq h.arr_len]
  have hkeys : ((t.array.flatten.foldl (spliceNode hash (2 * t.capacity + 1))
      { arr := List.replicate (2 * t.capacity + 1) [],
        sizes := List.replicate (2 * t.capacity + 1) 0,
        used := 0 }).arr.flatten.map Prod.fst).Nodup :=
    ((hperm.map Prod.fst).nodup_iff).2 (wf_flatten_keys_nodup h)
  refine ⟨⟨hpos, hrswf.arr_len, hrswf.sizes_len, hrswf.sizes_eq, ?_,
      hrswf.used_eq, hrswf.placed, ?_⟩, hperm, rfl, rfl⟩
  · rw [← List.length_flatten, hperm.length_eq, List.length_flatten, h.nsize_eq]
  · intro i
    exact ((getD_sublist_flatten _ i).map Prod.fst).nodup hkeys

theorem get_rehashing {hash : K → Nat} {t : ChainHash K V} (h : t.WF hash)
    (k : K) :
    ChainHash.get hash (ChainHash.rehashing hash t) k =
      ChainHash.get hash t k :=
  ChainHash.get_congr_perm h (rehashing_wf_perm h).1
    (rehashing_wf_perm h).2.1.symm k

/-! ### The two paths of `set` -/

theorem contains_eq_isSome (hash : K → Nat) (t : ChainHash K V) (k : K) :
    ChainHash.contains hash t k = (ChainHash.get hash t k).isSome :=
  containsChain_eq_isSome _ _

theorem contains_eq_false_iff {hash : K → Nat} {t : ChainHash K V} {k : K} :
    ChainHash.contains hash t k = false ↔
      k ∉ (t.array.getD (hash k % t.capacity) []).map Prod.fst := by
  rw [ChainHash.contains, containsChain_eq_isSome, ← findInChain_none_iff]
  cases findInChain (t.array.getD (hash k % t.capacity) []) k <;> simp

theorem contains_eq_true_iff {hash : K → Nat} {t : ChainHash K V} {k : K} :
    ChainHash.contains hash t k = true ↔
      k ∈ (t.array.getD (hash k % t.capacity) []).map Prod.fst := by
  constructor
  · intro ht
    by_contra hk
    rw [contains_eq_false_iff.2 hk] at ht
    cases ht
  · intro hk
    cases hc : ChainHash.contains hash t k
    · exact absurd hk (contains_eq_false_iff.1 hc)
    · rfl

theorem set_overwrite_eq {hash : K → Nat} {t : ChainHash K V} {k : K} {v : V}
    {c1 : List (K × V)}
    (hsome : overwriteInChain (t.array.getD (hash k % t.capacity) []) k v =
      some c1) :
    ChainHash.set hash t k v =
      { t with array := t.array.set (hash k % t.capacity) c1 } := by
  simp only [ChainHash.set, hsome]

theorem set_insert_eq {hash : K → Nat} {t : ChainHash K V} {k : K} {v : V}
    (hnone : overwriteInChain (t.array.getD (hash k % t.capacity) []) k v =
      none) :
    ChainHash.set hash t k v =
      if rehashTrigger hash t k v
      then ChainHash.rehashing hash (insertState hash t k v)
      else insertState hash t k v := by
  simp only [ChainHash.set, hnone, rehashTrigger, insertState]

omit [DecidableEq K] in
theorem rehashing_capacity (hash : K → Nat) (t : ChainHash K V) :
    (ChainHash.rehashing hash t).capacity = 2 * t.capacity + 1 := by
  simp only [ChainHash.rehashing]
  rw [if_neg (by omega : ¬ (2 * t.capacity + 1 ≤ t.capacity))]

omit [DecidableEq K] in
theorem rehashing_nsize (hash : K → Nat) (t : ChainHash K V) :
    (ChainHash.rehashing hash t).nsize = t.nsize := by
  simp only [ChainHash.rehashing]

/-! ### Well-formedness through the constructor and `set` -/

omit [DecidableEq K] in
theorem wf_mk (hash : K → Nat) (c : Int) : (mkChainHash K V c).WF hash := by
  refine ⟨?_, by simp [mkChainHash], by simp [mkChainHash], ?_, ?_, ?_, ?_, ?_⟩
  · show 0 < (if c ≤ 0 then 10 else c.toNat)
    by_cases h : c ≤ 0
    · simp [h]
    · rw [if_neg h]; omega
  · intro i
    show (List.replicate _ 0).getD i 0 = ((List.replicate _ []).getD i []).length
    rw [getD_replicate, getD_replicate]
    split_ifs <;> simp
  · show 0 = ((List.replicate _ []).map List.length).sum
    simp
  · show 0 = (List.replicate _ []).countP (fun b => 0 < b.length)
    rw [countP_replicate]; simp
  · intro i k hk
    rw [show (mkChainHash K V c).array = List.replicate _ [] from rfl,
      getD_replicate] at hk
    split_ifs at hk <;> simp at hk
  · intro i
    rw [show (mkChainHash K V c).array = List.replicate _ [] from rfl,
      getD_replicate]
    split_ifs <;> simp

omit [DecidableEq K] in
theorem insertState_wf {hash : K → Nat} {t : ChainHash K V} {k : K} {v : V}
    (h : t.WF hash)
    (hk : k ∉ (t.array.getD (hash k % t.capacity) []).map Prod.fst) :
    (insertState hash t k v).WF hash ∧
    (insertState hash t k v).array.flatten.Perm ((k, v) :: t.array.flatten) := by
  have hidx : hash k % t.capacity < t.capacity := Nat.mod_lt _ h.cap_pos
  have hia : hash k % t.capacity < t.array.length := by
    rw [h.arr_len]; exact hidx
  have his : hash k % t.capacity < t.bucket_sizes.length := by
    rw [h.sizes_len]; exact hidx
  constructor
  · refine ⟨h.cap_pos, by simp [insertState, h.arr_len],
      by simp [insertState, h.sizes_len], ?_, ?_, ?_, ?_, ?_⟩
    · intro i
      by_cases hi : hash k % t.capacity = i
      · subst hi
        rw [insertState, getD_set_self his, getD_set_self hia]
        rw [List.length_cons, h.sizes_eq]
      · rw [insertState, getD_set_ne hi, getD_set_ne hi, h.sizes_eq]
    · show t.nsize + 1 = ((t.array.set (hash k % t.capacity)
          ((k, v) :: t.array.getD (hash k % t.capacity) [])).map
            List.length).sum
      have hsum := map_sum_set List.length ([] : List (K × V)) hia
        (a := (k, v) :: t.array.getD (hash k % t.capacity) [])
      rw [h.nsize_eq]
      simp only [List.length_cons] at hsum
      omega
    · show (if t.bucket_sizes.getD (hash k % t.capacity) 0 = 0
          then t.usedBuckets + 1 else t.usedBuckets) =
        (t.array.set (hash k % t.capacity)
          ((k, v) :: t.array.getD (hash k % t.capacity) [])).countP
          (fun b => 0 < b.length)
      rw [countP_pos_set_cons hia, h.sizes_eq, h.used_eq]
      split_ifs <;> omega
    · intro i k1 hk1
      by_cases hi : hash k % t.capacity = i
      · subst hi
        rw [insertState, getD_set_self hia, List.map_cons] at hk1
        rcases List.mem_cons.1 hk1 with hk1 | hk1
        · rw [hk1]; rfl
        · exact h.placed _ k1 hk1
      · rw [insertState, getD_set_ne hi] at hk1
        exact h.placed i k1 hk1
    · intro i
      by_cases hi : hash k % t.capacity = i
      · subst hi
        rw [insertState, getD_set_self hia]
        rw [List.map_cons, List.nodup_cons]
        exact ⟨hk, h.nodupKeys _⟩
      · rw [insertState, getD_set_ne hi]
        exact h.nodupKeys i
  · exact flatten_set_cons hia

theorem overwrite_state_wf {hash : K → Nat} {t : ChainHash K V} {k : K}
    {v : V} {c1 : List (K × V)} (h : t.WF hash)
    (hsome : overwriteInChain (t.array.getD (hash k % t.capacity) []) k v =
      some c1) :
    ChainHash.WF hash
      { t with array := t.array.set (hash k % t.capacity) c1 } := by
  have hidx : hash k % t.capacity < t.capacity := Nat.mod_lt _ h.cap_pos
  have hia : hash k % t.capacity < t.array.length := by
    rw [h.arr_len]; exact hidx
  have hkeys := overwrite_keys hsome
  have hlen := overwrite_length hsome
  refine ⟨h.cap_pos, by simp [h.arr_len], h.sizes_len, ?_, ?_, ?_, ?_, ?_⟩
  · intro i
    by_cases hi : hash k % t.capacity = i
    · subst hi
      rw [getD_set_self hia]
      show t.bucket_sizes.getD _ 0 = c1.length
      rw [hlen, h.sizes_eq]
    · show t.bucket_sizes.getD i 0 = ((t.array.set _ c1).getD i []).length
      rw [getD_set_ne hi, h.sizes_eq]
  · show t.nsize =
      ((t.array.set (hash k % t.capacity) c1).map List.length).sum
    have hsum := map_sum_set List.length ([] : List (K × V)) hia (a := c1)
    rw [h.nsize_eq]
    omega
  · show t.usedBuckets =
      (t.array.set (hash k % t.capacity) c1).countP (fun b => 0 < b.length)
    rw [countP_pos_set_same_len hia hlen, h.used_eq]
  · intro i k1 hk1
    by_cases hi : hash k % t.capacity = i
    · subst hi
      rw [getD_set_self hia, hkeys] at hk1
      exact h.placed _ k1 hk1
    · rw [getD_set_ne hi] at hk1
      exact h.placed i k1 hk1
  · intro i
    by_cases hi : hash k % t.capacity = i
    · subst hi
      rw [getD_set_self hia, hkeys]
      exact h.nodupKeys _
    · rw [getD_set_ne hi]
      exact h.nodupKeys i

theorem wf_set {hash : K → Nat} {t : ChainHash K V} (h : t.WF hash)
    (k : K) (v : V) : (ChainHash.set hash t k v).WF hash := by
  cases hcase : overwriteInChain (t.array.getD (hash k % t.capacity) []) k v with
  | some c1 =>
    rw [set_overwrite_eq hcase]
    exact overwrite_state_wf h hcase
  | none =>
    rw [set_insert_eq hcase]
    have hk := overwriteInChain_none_iff.1 hcase
    obtain ⟨hwf1, _⟩ := insertState_wf (v := v) h hk
    by_cases htrig : rehashTrigger hash t k v
    · rw [if_pos htrig]
      exact (rehashing_wf_perm hwf1).1
    · rw [if_neg htrig]
      exact hwf1

/-! ### `get` after `set` -/

theorem get_set_self {hash : K → Nat} {t : ChainHash K V} (h : t.WF hash)
    (k : K) (v : V) :
    ChainHash.get hash (ChainHash.set hash t k v) k = some v := by
  have hidx : hash k % t.capacity < t.capacity := Nat.mod_lt _ h.cap_pos
  have hia : hash k % t.capacity < t.array.length := by
    rw [h.arr_len]; exact hidx
  cases hcase : overwriteInChain (t.array.getD (hash k % t.capacity) []) k v with
  | some c1 =>
    rw [set_overwrite_eq hcase]
    show findInChain ((t.array.set (hash k % t.capacity) c1).getD
      (hash k % t.capacity) []) k = some v
    rw [getD_set_self hia]
    exact overwrite_find_self hcase
  | none =>
    rw [set_insert_eq hcase]
    have hk := overwriteInChain_none_iff.1 hcase
    obtain ⟨hwf1, _⟩ := insertState_wf (v := v) h hk
    have hget1 : ChainHash.get hash (insertState hash t k v) k = some v := by
      show findInChain ((t.array.set (hash k % t.capacity)
        ((k, v) :: t.array.getD (hash k % t.capacity) [])).getD
        (hash k % t.capacity) []) k = some v
      rw [getD_set_self hia]
      simp [findInChain]
    by_cases htrig : rehashTrigger hash t k v
    · rw [if_pos htrig, get_rehashing hwf1 k, hget1]
    · rw [if_neg htrig, hget1]

theorem get_set_other {hash : K → Nat} {t : ChainHash K V} (h : t.WF hash)
    {k k' : K} (hne : k' ≠ k) (v : V) :
    ChainHash.get hash (ChainHash.set hash t k v) k' =
      ChainHash.get hash t k' := by
  have hidx : hash k % t.capacity < t.capacity := Nat.mod_lt _ h.cap_pos
  have hia : hash k % t.capacity < t.array.length := by
    rw [h.arr_len]; exact hidx
  have hnk : ¬ (k = k') := fun hx => hne hx.symm
  cases hcase : overwriteInChain (t.array.getD (hash k % t.capacity) []) k v with
  | some c1 =>
    rw [set_overwrite_eq hcase]
    show findInChain ((t.array.set (hash k % t.capacity) c1).getD
        (hash k' % t.capacity) []) k' =
      findInChain (t.array.getD (hash k' % t.capacity) []) k'
    by_cases hi : hash k % t.capacity = hash k' % t.capacity
    · rw [← hi, getD_set_self hia]
      exact overwrite_find_other hcase hne
    · rw [getD_set_ne hi]
  | none =>
    rw [set_insert_eq hcase]
    have hk := overwriteInChain_none_iff.1 hcase
    obtain ⟨hwf1, _⟩ := insertState_wf (v := v) h hk
    have hget1 : ChainHash.get hash (insertState hash t k v) k' =
        ChainHash.get hash t k' := by
      show findInChain ((t.array.set (hash k % t.capacity)
          ((k, v) :: t.array.getD (hash k % t.capacity) [])).getD
          (hash k' % t.capacity) []) k' =
        findInChain (t.array.getD (hash k' % t.capacity) []) k'
      by_cases hi : hash k % t.capacity = hash k' % t.capacity
      · rw [← hi, getD_set_self hia]
        show (if k = k' then some v else findInChain
          (t.array.getD (hash k % t.capacity) []) k') = _
        rw [if_neg hnk]
      · rw [getD_set_ne hi]
    by_cases htrig : rehashTrigger hash t k v
    · rw [if_pos htrig, get_rehashing hwf1, hget1]
    · rw [if_neg htrig, hget1]

/-! ### `remove`: the two paths -/

theorem remove_none_eq {hash : K → Nat} {t : ChainHash K V} {k : K}
    (hnone : removeFromChain (t.array.getD (hash k % t.capacity) []) k =
      none) :
    ChainHash.remove hash t k = (false, t) := by
  simp only [ChainHash.remove, hnone]

theorem remove_some_eq {hash : K → Nat} {t : ChainHash K V} {k : K}
    {c1 : List (K × V)}
    (hsome : removeFromChain (t.array.getD (hash k % t.capacity) []) k =
      some c1) :
    ChainHash.remove hash t k =
      (true,
        { array := t.array.set (hash k % t.capacity) c1
          bucket_sizes := t.bucket_sizes.set (hash k % t.capacity)
            (t.bucket_sizes.getD (hash k % t.capacity) 0 - 1)
          nsize := t.nsize - 1
          capacity := t.capacity
          usedBuckets :=
            if t.bucket_sizes.getD (hash k % t.capacity) 0 - 1 = 0
            then t.usedBuckets - 1 else t.usedBuckets }) := by
  simp only [ChainHash.remove, hsome]

theorem wf_remove {hash : K → Nat} {t : ChainHash K V} (h : t.WF hash)
    (k : K) : ((ChainHash.remove hash t k).2).WF hash := by
  cases hcase : removeFromChain (t.array.getD (hash k % t.capacity) []) k with
  | none => rw [remove_none_eq hcase]; exact h
  | some c1 =>
    rw [remove_some_eq hcase]
    have hidx : hash k % t.capacity < t.capacity := Nat.mod_lt _ h.cap_pos
    have hia : hash k % t.capacity < t.array.length := by
      rw [h.arr_len]; exact hidx
    have his : hash k % t.capacity < t.bucket_sizes.length := by
      rw [h.sizes_len]; exact hidx
    obtain ⟨pre, v, post, hc, hc1, hkpre⟩ := removeFromChain_spec hcase
    have hlen : (t.array.getD (hash k % t.capacity) []).length =
        c1.length + 1 := by
      rw [hc, hc1]; simp; omega
    have hsubl : List.Sublist c1 (t.array.getD (hash k % t.capacity) []) := by
      rw [hc, hc1]
      exact (List.sublist_cons_self (k, v) post).append_left pre
    refine ⟨h.cap_pos, by simp [h.arr_len], by simp [h.sizes_len],
      ?_, ?_, ?_, ?_, ?_⟩
    · intro i
      by_cases hi : hash k % t.capacity = i
      · subst hi
        rw [getD_set_self his, getD_set_self hia, h.sizes_eq, hlen]
        omega
      · rw [getD_set_ne hi, getD_set_ne hi, h.sizes_eq]
    · show t.nsize - 1 =
        ((t.array.set (hash k % t.capacity) c1).map List.length).sum
      have hsum := map_sum_set List.length ([] : List (K × V)) hia (a := c1)
      rw [h.nsize_eq]
      omega
    · show (if t.bucket_sizes.getD (hash k % t.capacity) 0 - 1 = 0
          then t.usedBuckets - 1 else t.usedBuckets) =
        (t.array.set (hash k % t.capacity) c1).countP (fun b => 0 < b.length)
      have hshrink := countP_pos_set_shrink hia hlen
      rw [h.sizes_eq, h.used_eq, hlen]
      simp only [Nat.add_sub_cancel]
      split_ifs at hshrink ⊢ <;> omega
    · intro i k1 hk1
      by_cases hi : hash k % t.capacity = i
      · subst hi
        rw [getD_set_self hia] at hk1
        exact h.placed _ k1 ((hsubl.map Prod.fst).subset hk1)
      · rw [getD_set_ne hi] at hk1
        exact h.placed i k1 hk1
    · intro i
      by_cases hi : hash k % t.capacity = i
      · subst hi
        rw [getD_set_self hia]
        exact (hsubl.map Prod.fst).nodup (h.nodupKeys _)
      · rw [getD_set_ne hi]
        exact h.nodupKeys i

theorem remove_fst_eq_contains (hash : K → Nat) (t : ChainHash K V) (k : K) :
    (ChainHash.remove hash t k).1 = ChainHash.contains hash t k := by
  cases hcase : removeFromChain (t.array.getD (hash k % t.capacity) []) k with
  | none =>
    rw [remove_none_eq hcase]
    have := removeFromChain_none_iff.1 hcase
    exact (contains_eq_false_iff.2 this).symm
  | some c1 =>
    rw [remove_some_eq hcase]
    obtain ⟨pre, v, post, hc, hc1, hkpre⟩ := removeFromChain_spec hcase
    have hmem : k ∈ (t.array.getD (hash k % t.capacity) []).map Prod.fst := by
      rw [hc]
      simp
    exact (contains_eq_true_iff.2 hmem).symm

theorem get_remove_self {hash : K → Nat} {t : ChainHash K V} (h : t.WF hash)
    (k : K) :
    ChainHash.get hash (ChainHash.remove hash t k).2 k = none := by
  cases hcase : removeFromChain (t.array.getD (hash k % t.capacity) []) k with
  | none =>
    rw [remove_none_eq hcase]
    rw [ChainHash.get, findInChain_none_iff]
    exact removeFromChain_none_iff.1 hcase
  | some c1 =>
    rw [remove_some_eq hcase]
    have hidx : hash k % t.capacity < t.capacity := Nat.mod_lt _ h.cap_pos
    have hia : hash k % t.capacity < t.array.length := by
      rw [h.arr_len]; exact hidx
    obtain ⟨pre, v, post, hc, hc1, hkpre⟩ := removeFromChain_spec hcase
    show findInChain ((t.array.set (hash k % t.capacity) c1).getD
      (hash k % t.capacity) []) k = none
    rw [getD_set_self hia, findInChain_none_iff]
    have hnd := h.nodupKeys (hash k % t.capacity)
    rw [hc] at hnd
    simp only [List.map_append, List.map_cons] at hnd
    have hknot : k ∉ pre.map Prod.fst ++ post.map Prod.fst := by
      intro hkm
      rcases List.mem_append.1 hkm with hm | hm
      · exact hkpre hm
      · have := (List.nodup_append.1 hnd).2.1
        exact (List.nodup_cons.1 this).1 hm
    rw [hc1]
    simpa using hknot

theorem capacity_remove (hash : K → Nat) (t : ChainHash K V) (k : K) :
    ((ChainHash.remove hash t k).2).capacity = t.capacity := by
  cases hcase : removeFromChain (t.array.getD (hash k % t.capacity) []) k with
  | none => rw [remove_none_eq hcase]
  | some c1 => rw [remove_some_eq hcase]

theorem capacity_set_le (hash : K → Nat) (t : ChainHash K V) (k : K) (v : V) :
    t.capacity ≤ (ChainHash.set hash t k v).capacity := by
  cases hcase : overwriteInChain (t.array.getD (hash k % t.capacity) []) k v with
  | some c1 => rw [set_overwrite_eq hcase]
  | none =>
    rw [set_insert_eq hcase]
    by_cases htrig : rehashTrigger hash t k v
    · rw [if_pos htrig, rehashing_capacity]
      show t.capacity ≤ 2 * t.capacity + 1
      omega
    · rw [if_neg htrig]
      show t.capacity ≤ t.capacity
      exact Nat.le_refl _

theorem reachable_wf {hash : K → Nat} {t : ChainHash K V}
    (h : ChainHash.Reachable hash t) : t.WF hash := by
  induction h with
  | init c => exact wf_mk hash c
  | step_set t1 k v _ ih => exact wf_set ih k v
  | step_remove t1 k _ ih => exact wf_remove ih k

/-! ### Sequences of `set` operations -/

theorem get_mk_eq_none (hash : K → Nat) (c : Int) (k : K) :
    ChainHash.get hash (mkChainHash K V c) k = none := by
  rw [ChainHash.get, findInChain_none_iff]
  intro hk
  rw [show (mkChainHash K V c).array = List.replicate _ [] from rfl,
    getD_replicate] at hk
  split_ifs at hk <;> simp at hk

theorem get_eq_none_of_contains_false {hash : K → Nat} {t : ChainHash K V}
    {k : K} (hc : ChainHash.contains hash t k = false) :
    ChainHash.get hash t k = none := by
  rw [contains_eq_isSome] at hc
  cases hg : ChainHash.get hash t k with
  | none => rfl
  | some v => rw [hg] at hc; simp at hc

theorem foldl_set_get {hash : K → Nat} (ops : List (K × V))
    (t : ChainHash K V) (h : t.WF hash) (k : K) :
    ChainHash.get hash
        (ops.foldl (fun t2 kv => ChainHash.set hash t2 kv.1 kv.2) t) k =
      ((ops.reverse.find? (fun kv => decide (kv.1 = k))).map Prod.snd).or
        (ChainHash.get hash t k) := by
  induction ops generalizing t with
  | nil => simp
  | cons kv rest ih =>
    rw [List.foldl_cons, ih _ (wf_set h kv.1 kv.2), List.reverse_cons,
      List.find?_append]
    cases hf : rest.reverse.find? (fun kv2 => decide (kv2.1 = k)) with
    | some kv2 => simp [Option.or]
    | none =>
      rw [Option.none_or, Option.map_none', Option.none_or,
        List.find?_singleton]
      by_cases hk : kv.1 = k
      · rw [if_pos (by simp [hk]), Option.map_some']
        rw [← hk]
        exact get_set_self h kv.1 kv.2
      · rw [if_neg (by simp [hk]), Option.map_none', Option.none_or]
        exact get_set_other h (fun hx => hk hx.symm) kv.2

theorem runSets_get {hash : K → Nat} (ops : List (K × V)) (k : K) :
    ChainHash.get hash (runSets hash ops) k =
      (ops.reverse.find? (fun kv => decide (kv.1 = k))).map Prod.snd := by
  rw [runSets, foldl_set_get ops _ (wf_mk hash 10) k, get_mk_eq_none]
  cases ops.reverse.find? (fun kv => decide (kv.1 = k)) <;> rfl

/-! ### The bag-of-words builder simulates a word-to-indices map -/

theorem bowWords_fold {hash : String → Nat} (i : Nat) (uw : List String)
    (hnd : uw.Nodup) (t : ChainHash String (List Nat))
    (m : String → Option (List Nat)) (hwf : t.WF hash)
    (hsim : ∀ w, ChainHash.get hash t w = m w) :
    (uw.foldl (bowStepWord hash i) t).WF hash ∧
    ∀ w, ChainHash.get hash (uw.foldl (bowStepWord hash i) t) w =
      if w ∈ uw then some ((m w).getD [] ++ [i]) else m w := by
  induction uw generalizing t m with
  | nil => exact ⟨hwf, fun w => by simp [hsim w]⟩
  | cons word rest ih =>
    rw [List.nodup_cons] at hnd
    have hstep_wf : (bowStepWord hash i t word).WF hash := by
      unfold bowStepWord
      split_ifs <;> exact wf_set hwf _ _
    have hstep_get : ∀ w, ChainHash.get hash (bowStepWord hash i t word) w =
        if w = word then some ((m word).getD [] ++ [i]) else m w := by
      intro w
      by_cases hw : w = word
      · subst hw
        rw [if_pos rfl]
        unfold bowStepWord
        by_cases hc : ChainHash.contains hash t w
        · rw [if_pos hc, get_set_self hwf, hsim w]
        · rw [if_neg hc, get_set_self hwf, ← hsim w,
            get_eq_none_of_contains_false (Bool.of_not_eq_true hc)]
          rfl
      · rw [if_neg hw]
        unfold bowStepWord
        split_ifs <;> rw [get_set_other hwf hw, hsim w]
    obtain ⟨hwf2, hget2⟩ := ih hnd.2 (bowStepWord hash i t word)
      (fun w => if w = word then some ((m word).getD [] ++ [i]) else m w)
      hstep_wf hstep_get
    refine ⟨hwf2, fun w => ?_⟩
    rw [List.foldl_cons, hget2 w]
    by_cases hw : w = word
    · subst hw
      rw [if_neg (fun hmem => hnd.1 hmem), if_pos rfl, if_pos (by simp)]
    · by_cases hr : w ∈ rest
      · rw [if_pos hr, if_neg hw, if_pos (List.mem_cons_of_mem _ hr)]
      · rw [if_neg hr, if_neg hw,
          if_neg (fun hmem => by rcases List.mem_cons.1 hmem with h1 | h1
                                 exacts [hw h1, hr h1])]

theorem bowDocs_fold {hash : String → Nat} (docs : List String)
    (idxs : List Nat) (t : ChainHash String (List Nat))
    (m : String → Option (List Nat)) (hwf : t.WF hash)
    (hsim : ∀ w, ChainHash.get hash t w = m w) :
    (idxs.foldl (bowStepDoc hash docs) t).WF hash ∧
    ∀ w, ChainHash.get hash (idxs.foldl (bowStepDoc hash docs) t) w =
      idxs.foldl (bowSpecStep docs) m w := by
  induction idxs generalizing t m with
  | nil => exact ⟨hwf, hsim⟩
  | cons i rest ih =>
    obtain ⟨hwf1, hget1⟩ := bowWords_fold i
      (tokenize (docs.getD i "")).dedup (List.nodup_dedup _) t m hwf hsim
    exact ih (bowStepDoc hash docs t i) (bowSpecStep docs m i) hwf1
      (fun w => hget1 w)

theorem bagOfWords_get (hash : String → Nat) (docs : List String)
    (w : String) :
    ChainHash.get hash (bagOfWords hash docs) w = bowSpec docs w := by
  obtain ⟨_, hget⟩ := bowDocs_fold docs (List.range docs.length)
    (mkChainHash String (List Nat) 13) (fun _ => none) (wf_mk hash 13)
    (fun w1 => get_mk_eq_none hash 13 w1)
  exact hget w

theorem bagOfWords_wf (hash : String → Nat) (docs : List String) :
    (bagOfWords hash docs).WF hash := by
  obtain ⟨hwf, _⟩ := bowDocs_fold docs (List.range docs.length)
    (mkChainHash String (List Nat) 13) (fun _ => none) (wf_mk hash 13)
    (fun w1 => get_mk_eq_none hash 13 w1)
  exact hwf

/-! ### The claims -/

/-- C1: for every key `k` and value `v`, immediately after `set(k, v)` on any
table (every table the program can construct is well-formed, by `wf_mk`,
`wf_set`, `wf_remove` and `reachable_wf`), `get(k)` returns `v` and
`contains(k)` returns `true`. -/
theorem claim_C1 {hash : K → Nat} {t : ChainHash K V} (h : t.WF hash)
    (k : K) (v : V) :
    ChainHash.get hash (ChainHash.set hash t k v) k = some v ∧
    ChainHash.contains hash (ChainHash.set hash t k v) k = true := by
  refine ⟨get_set_self h k v, ?_⟩
  rw [contains_eq_isSome, get_set_self h k v]
  rfl

theorem claim_C1_witness :
    ChainHash.get hashId (ChainHash.set hashId t10 1 2) 1 = some 2 ∧
    ChainHash.contains hashId (ChainHash.set hashId t10 1 2) 1 = true :=
  claim_C1 (wf_mk hashId 10) 1 2

/-- C2: rehashing preserves content.  On any well-formed table, `rehashing`
preserves every `get`, permutes the entries (no node duplicated or lost) and
keeps `size()` unchanged; and for every sequence of `set` operations run on a
fresh table, `get k` returns exactly the value of the last `set` of `k`, so
every pair set earlier and not overwritten is still retrievable unchanged
through any number of rehashes. -/
theorem claim_C2 {hash : K → Nat} {t : ChainHash K V} (h : t.WF hash) :
    (∀ k, ChainHash.get hash (ChainHash.rehashing hash t) k =
        ChainHash.get hash t k) ∧
    (ChainHash.rehashing hash t).array.flatten.Perm t.array.flatten ∧
    (ChainHash.rehashing hash t).size = t.size ∧
    (∀ (ops : List (K × V)) (k : K),
      ChainHash.get hash (runSets hash ops) k =
        (ops.reverse.find? (fun kv => decide (kv.1 = k))).map Prod.snd) :=
  ⟨get_rehashing h, (rehashing_wf_perm h).2.1, rehashing_nsize hash t,
    fun ops k => runSets_get ops k⟩

theorem claim_C2_witness :
    (∀ k, ChainHash.get hashId (ChainHash.rehashing hashId t10) k =
        ChainHash.get hashId t10 k) ∧
    (ChainHash.rehashing hashId t10).array.flatten.Perm t10.array.flatten ∧
    (ChainHash.rehashing hashId t10).size = t10.size ∧
    (∀ (ops : List (Nat × Nat)) (k : Nat),
      ChainHash.get hashId (runSets hashId ops) k =
        (ops.reverse.find? (fun kv => decide (kv.1 = k))).map Prod.snd) := by
  unfold t10
  exact claim_C2 (@wf_mk Nat Nat hashId 10)

/-- C5: on any well-formed table, `remove` of a present key returns `true`
and makes the key absent (`contains` false, `get` fails, a second `remove`
returns `false`), and `remove` of an absent key returns `false`. -/
theorem claim_C5 {hash : K → Nat} {t : ChainHash K V} (h : t.WF hash)
    (k : K) :
    (ChainHash.contains hash t k = true →
      (ChainHash.remove hash t k).1 = true ∧
      ChainHash.contains hash (ChainHash.remove hash t k).2 k = false ∧
      ChainHash.get hash (ChainHash.remove hash t k).2 k = none ∧
      (ChainHash.remove hash (ChainHash.remove hash t k).2 k).1 = false) ∧
    (ChainHash.contains hash t k = false →
      (ChainHash.remove hash t k).1 = false) := by
  have habsent : ChainHash.contains hash (ChainHash.remove hash t k).2 k =
      false := by
    rw [contains_eq_isSome, get_remove_self h k]
    rfl
  constructor
  · intro hc
    refine ⟨by rw [remove_fst_eq_contains, hc], habsent, get_remove_self h k,
      by rw [remove_fst_eq_contains, habsent]⟩
  · intro hc
    rw [remove_fst_eq_contains, hc]

theorem claim_C5_witness :
    ((ChainHash.contains hashId t11 1 = true →
      (ChainHash.remove hashId t11 1).1 = true ∧
      ChainHash.contains hashId (ChainHash.remove hashId t11 1).2 1 = false ∧
      ChainHash.get hashId (ChainHash.remove hashId t11 1).2 1 = none ∧
      (ChainHash.remove hashId (ChainHash.remove hashId t11 1).2 1).1 =
        false) ∧
    (ChainHash.contains hashId t11 1 = false →
      (ChainHash.remove hashId t11 1).1 = false)) ∧
    ChainHash.contains hashId t11 1 = true :=
  ⟨claim_C5 (wf_set (wf_mk hashId 10) 1 5) 1, by decide⟩

/-- C6: `set` on a key already present overwrites only that key's value in
place: `get` returns the new value, while `size`, `bucket_count`,
`usedBuckets`, the whole `bucket_sizes` array, every chain length (no new
node) and every other key's `get` are unchanged, and no rehash occurs. -/
theorem claim_C6 {hash : K → Nat} {t : ChainHash K V} (k : K) (v2 : V)
    (hc : ChainHash.contains hash t k = true) :
    ChainHash.get hash (ChainHash.set hash t k v2) k = some v2 ∧
    (ChainHash.set hash t k v2).size = t.size ∧
    (ChainHash.set hash t k v2).bucket_count = t.bucket_count ∧
    (ChainHash.set hash t k v2).usedBuckets = t.usedBuckets ∧
    (ChainHash.set hash t k v2).bucket_sizes = t.bucket_sizes ∧
    (∀ i, ((ChainHash.set hash t k v2).array.getD i []).length =
      (t.array.getD i []).length) ∧
    (∀ k1, k1 ≠ k → ChainHash.get hash (ChainHash.set hash t k v2) k1 =
      ChainHash.get hash t k1) := by
  have hmem := contains_eq_true_iff.1 hc
  have hia : hash k % t.capacity < t.array.length := by
    by_contra hge
    rw [getD_of_ge (Nat.le_of_not_lt hge)] at hmem
    simp at hmem
  cases hcase : overwriteInChain (t.array.getD (hash k % t.capacity) []) k v2 with
  | none =>
    exact absurd hmem (overwriteInChain_none_iff.1 hcase)
  | some c1 =>
    rw [set_overwrite_eq hcase]
    refine ⟨?_, rfl, rfl, rfl, rfl, ?_, ?_⟩
    · show findInChain ((t.array.set (hash k % t.capacity) c1).getD
        (hash k % t.capacity) []) k = some v2
      rw [getD_set_self hia]
      exact overwrite_find_self hcase
    · intro i
      by_cases hi : hash k % t.capacity = i
      · subst hi
        rw [getD_set_self hia, overwrite_length hcase]
      · rw [getD_set_ne hi]
    · intro k1 hne
      show findInChain ((t.array.set (hash k % t.capacity) c1).getD
          (hash k1 % t.capacity) []) k1 =
        findInChain (t.array.getD (hash k1 % t.capacity) []) k1
      by_cases hi : hash k % t.capacity = hash k1 % t.capacity
      · rw [← hi, getD_set_self hia]
        exact overwrite_find_other hcase hne
      · rw [getD_set_ne hi]

theorem claim_C6_witness :
    ChainHash.contains hashId t11 1 = true ∧
    (ChainHash.get hashId (ChainHash.set hashId t11 1 7) 1 = some 7 ∧
    (ChainHash.set hashId t11 1 7).size = t11.size ∧
    (ChainHash.set hashId t11 1 7).bucket_count = t11.bucket_count ∧
    (ChainHash.set hashId t11 1 7).usedBuckets = t11.usedBuckets ∧
    (ChainHash.set hashId t11 1 7).bucket_sizes = t11.bucket_sizes ∧
    (∀ i, ((ChainHash.set hashId t11 1 7).array.getD i []).length =
      (t11.array.getD i []).length) ∧
    (∀ k1, k1 ≠ 1 → ChainHash.get hashId (ChainHash.set hashId t11 1 7) k1 =
      ChainHash.get hashId t11 k1)) :=
  ⟨by decide, claim_C6 1 7 (by decide)⟩

/-- C7: `get` fails (returns `none`, modelling the `KeyNotFound` throw)
exactly when `contains` is `false`; when `contains` is `true`, `get` returns
a stored value, one of the entries of the table. -/
theorem claim_C7 (hash : K → Nat) (t : ChainHash K V) (k : K) :
    (ChainHash.get hash t k = none ↔ ChainHash.contains hash t k = false) ∧
    (ChainHash.contains hash t k = true → ∃ v,
      ChainHash.get hash t k = some v ∧ (k, v) ∈ t.array.flatten) := by
  constructor
  · rw [contains_eq_isSome]
    cases hg : ChainHash.get hash t k <;> simp
  · intro hc
    rw [contains_eq_isSome] at hc
    cases hg : ChainHash.get hash t k with
    | none => rw [hg] at hc; simp at hc
    | some v =>
      refine ⟨v, rfl, ?_⟩
      exact (getD_sublist_flatten t.array (hash k % t.capacity)).subset
        (findInChain_mem hg)

theorem claim_C7_witness :
    (ChainHash.get hashId t11 1 = none ↔
      ChainHash.contains hashId t11 1 = false) ∧
    (ChainHash.contains hashId t11 1 = true → ∃ v,
      ChainHash.get hashId t11 1 = some v ∧ (1, v) ∈ t11.array.flatten) :=
  claim_C7 hashId t11 1

/-- C8: `bucket_count` never decreases: `set` can only keep or grow the
capacity, `remove` never changes it (and never rehashes), and every
`rehashing` strictly increases it (to `2 * capacity + 1`). -/
theorem claim_C8 (hash : K → Nat) :
    (∀ (t : ChainHash K V) (k : K) (v : V),
      t.bucket_count ≤ (ChainHash.set hash t k v).bucket_count) ∧
    (∀ (t : ChainHash K V) (k : K),
      ((ChainHash.remove hash t k).2).bucket_count = t.bucket_count) ∧
    (∀ t : ChainHash K V,
      t.bucket_count < (ChainHash.rehashing hash t).bucket_count) := by
  refine ⟨fun t k v => capacity_set_le hash t k v,
    fun t k => capacity_remove hash t k, fun t => ?_⟩
  show t.capacity < (ChainHash.rehashing hash t).capacity
  rw [rehashing_capacity]
  omega

/-- C10: `remove` of an absent key returns `false` and leaves the table
state completely unchanged (the result carries the very same table value:
same counters, same arrays, same chains). -/
theorem claim_C10 {hash : K → Nat} (t : ChainHash K V) (k : K)
    (hc : ChainHash.contains hash t k = false) :
    ChainHash.remove hash t k = (false, t) := by
  apply remove_none_eq
  rw [removeFromChain_none_iff]
  exact contains_eq_false_iff.1 hc

theorem claim_C10_witness :
    ChainHash.contains hashId t11 2 = false ∧
    ChainHash.remove hashId t11 2 = (false, t11) :=
  ⟨by decide, claim_C10 t11 2 (by decide)⟩

/-- C3: after any sequence of `set` and `remove` operations starting from
the constructor, `size()` equals the sum of `bucket_size(i)` over all
`i < bucket_count()`, and the `usedBuckets` counter equals the number of
buckets whose size is positive. -/
theorem claim_C3 {hash : K → Nat} {t : ChainHash K V}
    (h : ChainHash.Reachable hash t) :
    t.size = ((List.range t.bucket_count).map
        (fun i => (t.bucket_size i).getD 0)).sum ∧
    t.usedBuckets = ((List.range t.bucket_count).filter
        (fun i => 0 < (t.bucket_size i).getD 0)).length := by
  have hw := reachable_wf h
  have hbs : ∀ i ∈ List.range t.bucket_count,
      (t.bucket_size i).getD 0 = (t.array.getD i []).length := by
    intro i hi
    rw [List.mem_range] at hi
    rw [ChainHash.bucket_count] at hi
    rw [ChainHash.bucket_size, if_pos hi, Option.getD_some, hw.sizes_eq]
  constructor
  · have hmap : (List.range t.bucket_count).map
        (fun i => (t.bucket_size i).getD 0) = t.array.map List.length := by
      rw [List.map_congr_left hbs]
      show (List.range t.capacity).map (fun i => (t.array.getD i []).length)
        = t.array.map List.length
      rw [← hw.arr_len]
      rw [show (fun i => (t.array.getD i []).length) =
        (List.length ∘ fun i => t.array.getD i []) from rfl]
      rw [← List.map_map, range_map_getD]
    rw [hmap]
    exact hw.nsize_eq
  · rw [← List.countP_eq_length_filter,
      List.countP_congr (fun i hi => by rw [hbs i hi])]
    show t.usedBuckets = (List.range t.capacity).countP
      (fun i => decide (0 < (t.array.getD i []).length))
    have hcp : (List.range t.capacity).countP
        (fun i => decide (0 < (t.array.getD i []).length)) =
        ((List.range t.capacity).map (fun i => t.array.getD i [])).countP
          (fun b => 0 < b.length) := by
      rw [List.countP_map]
      rfl
    rw [hcp, ← hw.arr_len, range_map_getD]
    exact hw.used_eq

theorem claim_C3_witness :
    t11.size = ((List.range t11.bucket_count).map
        (fun i => (t11.bucket_size i).getD 0)).sum ∧
    t11.usedBuckets = ((List.range t11.bucket_count).filter
        (fun i => 0 < (t11.bucket_size i).getD 0)).length := by
  unfold t11 t10
  exact claim_C3 (ChainHash.Reachable.step_set _ 1 5
    (@ChainHash.Reachable.init Nat Nat _ hashId 10))

/-- C4: on a well-formed table, the rehash trigger of `set` is exactly
"after inserting a previously absent key, the bucket's updated size exceeds
the collision threshold 3, or the updated fill factor `usedBuckets /
capacity` exceeds 0.8"; a triggered rehash grows the capacity to
`2 * oldCapacity + 1`, an untriggered insertion and an overwrite of a
present key leave it unchanged. -/
theorem claim_C4 {hash : K → Nat} {t : ChainHash K V} (h : t.WF hash)
    (k : K) (v : V) :
    (rehashTrigger hash t k v ↔
      (maxColision < t.bucket_sizes.getD (hash k % t.capacity) 0 + 1 ∨
       fillFactorExceeded
         (if t.bucket_sizes.getD (hash k % t.capacity) 0 = 0
          then t.usedBuckets + 1 else t.usedBuckets) t.capacity)) ∧
    (ChainHash.contains hash t k = false →
      ((ChainHash.set hash t k v).bucket_count =
        if rehashTrigger hash t k v then 2 * t.bucket_count + 1
        else t.bucket_count) ∧
      ((ChainHash.set hash t k v).bucket_count ≠ t.bucket_count ↔
        rehashTrigger hash t k v)) ∧
    (ChainHash.contains hash t k = true →
      (ChainHash.set hash t k v).bucket_count = t.bucket_count) := by
  have hidx : hash k % t.capacity < t.capacity := Nat.mod_lt _ h.cap_pos
  have his : hash k % t.capacity < t.bucket_sizes.length := by
    rw [h.sizes_len]; exact hidx
  refine ⟨?_, ?_, ?_⟩
  · simp only [rehashTrigger, insertState]
    rw [getD_set_self his]
  · intro hcf
    have hcase := (@overwriteInChain_none_iff K V _
      (t.array.getD (hash k % t.capacity) []) k v).2
      (contains_eq_false_iff.1 hcf)
    rw [set_insert_eq hcase]
    by_cases htrig : rehashTrigger hash t k v
    · rw [if_pos htrig, if_pos htrig]
      have hcap : (ChainHash.rehashing hash
          (insertState hash t k v)).bucket_count = 2 * t.capacity + 1 := by
        show (ChainHash.rehashing hash (insertState hash t k v)).capacity = _
        rw [rehashing_capacity]
        rfl
      refine ⟨hcap, fun _ => htrig, ?_⟩
      intro _
      rw [hcap]
      show ¬ (2 * t.capacity + 1 = t.capacity)
      omega
    · rw [if_neg htrig, if_neg htrig]
      refine ⟨rfl, ?_, fun htr => absurd htr htrig⟩
      intro hne
      exact absurd rfl hne
  · intro hct
    have hmem := contains_eq_true_iff.1 hct
    cases hcase : overwriteInChain (t.array.getD (hash k % t.capacity) [])
        k v with
    | none => exact absurd hmem (overwriteInChain_none_iff.1 hcase)
    | some c1 =>
      rw [set_overwrite_eq hcase]
      rfl

theorem claim_C4_witness :
    ((rehashTrigger hashId t10 1 2 ↔
      (maxColision < t10.bucket_sizes.getD (hashId 1 % t10.capacity) 0 + 1 ∨
       fillFactorExceeded
         (if t10.bucket_sizes.getD (hashId 1 % t10.capacity) 0 = 0
          then t10.usedBuckets + 1 else t10.usedBuckets) t10.capacity)) ∧
    (ChainHash.contains hashId t10 1 = false →
      ((ChainHash.set hashId t10 1 2).bucket_count =
        if rehashTrigger hashId t10 1 2 then 2 * t10.bucket_count + 1
        else t10.bucket_count) ∧
      ((ChainHash.set hashId t10 1 2).bucket_count ≠ t10.bucket_count ↔
        rehashTrigger hashId t10 1 2)) ∧
    (ChainHash.contains hashId t10 1 = true →
      (ChainHash.set hashId t10 1 2).bucket_count = t10.bucket_count)) ∧
    ChainHash.contains hashId t10 1 = false := by
  constructor
  · unfold t10
    exact claim_C4 (@wf_mk Nat Nat hashId 10) 1 2
  · decide

/-- C9: on the four documents of `main`, the bag-of-words builder maps
"casa" to [0, 1, 2, 3], "grande" to [0, 2], "gato" to [1] and "el" to
[1, 3], and every word's document-index list is strictly ascending; this
holds for any hash function, i.e. any `std::hash` instantiation. -/
theorem claim_C9 (hash : String → Nat) :
    ChainHash.get hash (bagOfWords hash documentos) "casa" =
      some [0, 1, 2, 3] ∧
    ChainHash.get hash (bagOfWords hash documentos) "grande" = some [0, 2] ∧
    ChainHash.get hash (bagOfWords hash documentos) "gato" = some [1] ∧
    ChainHash.get hash (bagOfWords hash documentos) "el" = some [1, 3] ∧
    ∀ w l, ChainHash.get hash (bagOfWords hash documentos) w = some l →
      l.Chain' (· < ·) := by
  refine ⟨?_, ?_, ?_, ?_, ?_⟩
  · rw [bagOfWords_get]
    decide
  · rw [bagOfWords_get]
    decide
  · rw [bagOfWords_get]
    decide
  · rw [bagOfWords_get]
    decide
  · intro w l
    rw [bagOfWords_get]
    show (List.range documentos.length).foldl (bowSpecStep documentos)
      (fun _ => none) w = some l → l.Chain' (· < ·)
    rw [show List.range documentos.length = [0, 1, 2, 3] from rfl]
    simp only [List.foldl_cons, List.foldl_nil, bowSpecStep,
      Option.getD_none, Option.getD_some]
    split_ifs <;> intro hsome <;>
      first
        | exact hsome.elim
        | exact Option.noConfusion hsome
        | (injection hsome with h2; subst h2;
           simp [List.chain'_cons, List.chain'_singleton])

theorem claim_C9_witness :
    ChainHash.get String.length (bagOfWords String.length documentos)
      "casa" = some [0, 1, 2, 3] ∧
    ChainHash.get String.length (bagOfWords String.length documentos)
      "grande" = some [0, 2] ∧
    ChainHash.get String.length (bagOfWords String.length documentos)
      "gato" = some [1] ∧
    ChainHash.get String.length (bagOfWords String.length documentos)
      "el" = some [1, 3] ∧
    ∀ w l, ChainHash.get String.length (bagOfWords String.length documentos)
        w = some l → l.Chain' (· < ·) :=
  claim_C9 String.length
